import Mathlib

/-! Verification of the metric grid generation and point-location engine of
the Baegun lake-monitoring backend (src/backend/app.py).

Modelling conventions.  Python strings are embedded as lists of characters.
Python floats are embedded as exact rationals; the two projection scale
factors, which the code obtains from the transcendental cosine, are taken as
explicit parameters of the rational development and are defined over the
real numbers in the sections whose claims concern the cosine itself.  The
shapely geometry library and the PostGIS store are external collaborators of
the code under verification and enter the model as explicit oracles
(an intersection predicate on rings, a containment predicate on rings) and
as an explicit row list, respectively.  The two scan loops of the generator
are written with explicit fuel, since the source loops have no intrinsic
bound: a none result means the loop did not finish within the given fuel,
and a fueled run that returns some models a terminating run of the code. -/

/-- Loop of col_letters (app.py lines 172-178).  The Python loop is
"while idx: idx, r = divmod(idx-1, 26); s = chr(65+r)+s"; the first
argument is termination fuel.  Any fuel at least the starting value makes
the loop run to its natural completion, because the value strictly
decreases; the wrapper below supplies such fuel. -/
def col_letters_go : Nat → Nat → List Char → List Char
  | 0, _, s => s
  | _ + 1, 0, s => s
  | fuel + 1, n + 1, s => col_letters_go fuel (n / 26) (Char.ofNat (65 + n % 26) :: s)

/-- col_letters (app.py lines 172-178): spreadsheet-style column label of a
zero-based column index.  The source first increments idx and then runs the
divmod loop. -/
def col_letters (idx : Nat) : List Char :=
  col_letters_go (idx + 1) (idx + 1) []

/-- Digit loop of the Python built-in str() on a natural number, most
significant digit first; fueled like col_letters_go. -/
def dec_str_go : Nat → Nat → List Char → List Char
  | 0, _, s => s
  | _ + 1, 0, s => s
  | fuel + 1, n + 1, s => dec_str_go fuel ((n + 1) / 10) (Char.ofNat (48 + (n + 1) % 10) :: s)

/-- Decimal representation modelling the Python built-in str(n) for a
positive integer n (the code only applies it to row+1, which is positive). -/
def dec_str (n : Nat) : List Char :=
  dec_str_go n n []

/-- Tile identifier built at app.py line 219: the f-string
col_letters(col) followed by str(row+1). -/
def identifier (col row : Nat) : List Char :=
  col_letters col ++ dec_str (row + 1)

/-- Base-26 value of a letter string, reading A as 1 through Z as 26, most
significant letter first.  This is the decoding side of the bijective
base-26 numeration used to state the identifier claims. -/
def val26 (s : List Char) : Nat :=
  s.foldl (fun a c => a * 26 + (c.toNat - 64)) 0

/-- Base-10 value of a digit string, most significant digit first. -/
def val10 (s : List Char) : Nat :=
  s.foldl (fun a c => a * 10 + (c.toNat - 48)) 0

lemma toNat_ofNat_small (n : Nat) (h : n < 55296) : (Char.ofNat n).toNat = n := by
  have hv : n.isValidChar := Or.inl h
  rw [Char.ofNat, dif_pos hv]
  rfl

lemma col_letters_go_zero (fuel : Nat) (s : List Char) : col_letters_go fuel 0 s = s := by
  cases fuel <;> rfl

lemma col_letters_go_append (fuel : Nat) :
    ∀ n s, col_letters_go fuel n s = col_letters_go fuel n [] ++ s := by
  induction fuel with
  | zero => intro n s; rfl
  | succ fuel ih =>
    intro n s
    cases n with
    | zero => rfl
    | succ m =>
      show col_letters_go fuel (m / 26) (_ :: s) = col_letters_go fuel (m / 26) [_] ++ s
      rw [ih (m / 26) (_ :: s), ih (m / 26) [_]]
      simp

lemma val26_col_letters_go (fuel : Nat) :
    ∀ n, n ≤ fuel → val26 (col_letters_go fuel n []) = n := by
  induction fuel with
  | zero =>
    intro n hn
    interval_cases n
    rfl
  | succ fuel ih =>
    intro n hn
    cases n with
    | zero => rfl
    | succ m =>
      show val26 (col_letters_go fuel (m / 26) [_]) = m + 1
      rw [col_letters_go_append]
      have hm : m / 26 ≤ fuel := le_trans (Nat.div_le_self m 26) (Nat.lt_succ_iff.mp hn)
      have hc : (Char.ofNat (65 + m % 26)).toNat = 65 + m % 26 :=
        toNat_ofNat_small _ (by have := Nat.mod_lt m (show 0 < 26 by omega); omega)
      unfold val26
      rw [List.foldl_append]
      have hv := ih (m / 26) hm
      unfold val26 at hv
      rw [hv]
      simp only [List.foldl_cons, List.foldl_nil, hc]
      have := Nat.div_add_mod m 26
      omega

lemma val26_col_letters (idx : Nat) : val26 (col_letters idx) = idx + 1 :=
  val26_col_letters_go (idx + 1) (idx + 1) le_rfl

lemma col_letters_inj (i j : Nat) (h : col_letters i = col_letters j) : i = j := by
  have hv : val26 (col_letters i) = val26 (col_letters j) := by rw [h]
  rw [val26_col_letters, val26_col_letters] at hv
  omega

lemma col_letters_go_chars (fuel : Nat) :
    ∀ n s, (∀ c ∈ s, 65 ≤ c.toNat ∧ c.toNat ≤ 90) →
      ∀ c ∈ col_letters_go fuel n s, 65 ≤ c.toNat ∧ c.toNat ≤ 90 := by
  induction fuel with
  | zero => intro n s hs; exact hs
  | succ fuel ih =>
    intro n s hs
    cases n with
    | zero => exact hs
    | succ m =>
      refine ih (m / 26) _ ?_
      intro c hc
      rcases List.mem_cons.mp hc with h | h
      · subst h
        have hmod : m % 26 < 26 := Nat.mod_lt m (by omega)
        rw [toNat_ofNat_small _ (by omega)]
        omega
      · exact hs c h

lemma col_letters_chars (idx : Nat) :
    ∀ c ∈ col_letters idx, 65 ≤ c.toNat ∧ c.toNat ≤ 90 :=
  col_letters_go_chars (idx + 1) (idx + 1) [] (by simp)

lemma col_letters_ne_nil (idx : Nat) : col_letters idx ≠ [] := by
  show col_letters_go (idx + 1) (idx + 1) [] ≠ []
  cases idx with
  | zero => simp [col_letters_go, col_letters_go_zero]
  | succ m =>
    show col_letters_go (m + 1) ((m + 1) / 26) [_] ≠ []
    rw [col_letters_go_append]
    simp

lemma dec_str_go_zero (fuel : Nat) (s : List Char) : dec_str_go fuel 0 s = s := by
  cases fuel <;> rfl

lemma dec_str_go_append (fuel : Nat) :
    ∀ n s, dec_str_go fuel n s = dec_str_go fuel n [] ++ s := by
  induction fuel with
  | zero => intro n s; rfl
  | succ fuel ih =>
    intro n s
    cases n with
    | zero => rfl
    | succ m =>
      show dec_str_go fuel ((m + 1) / 10) (_ :: s) = dec_str_go fuel ((m + 1) / 10) [_] ++ s
      rw [ih ((m + 1) / 10) (_ :: s), ih ((m + 1) / 10) [_]]
      simp

lemma val10_dec_str_go (fuel : Nat) :
    ∀ n, n ≤ fuel → val10 (dec_str_go fuel n []) = n := by
  induction fuel with
  | zero =>
    intro n hn
    interval_cases n
    rfl
  | succ fuel ih =>
    intro n hn
    cases n with
    | zero => rfl
    | succ m =>
      show val10 (dec_str_go fuel ((m + 1) / 10) [_]) = m + 1
      rw [dec_str_go_append]
      have hm : (m + 1) / 10 ≤ fuel := by
        have : (m + 1) / 10 < m + 1 := Nat.div_lt_self (by omega) (by omega)
        omega
      have hmod : (m + 1) % 10 < 10 := Nat.mod_lt (m + 1) (by omega)
      have hc : (Char.ofNat (48 + (m + 1) % 10)).toNat = 48 + (m + 1) % 10 :=
        toNat_ofNat_small _ (by omega)
      unfold val10
      rw [List.foldl_append]
      have hv := ih ((m + 1) / 10) hm
      unfold val10 at hv
      rw [hv]
      simp only [List.foldl_cons, List.foldl_nil, hc]
      have := Nat.div_add_mod (m + 1) 10
      omega

lemma val10_dec_str (n : Nat) : val10 (dec_str n) = n :=
  val10_dec_str_go n n le_rfl

lemma dec_str_inj (m n : Nat) (h : dec_str m = dec_str n) : m = n := by
  have hv : val10 (dec_str m) = val10 (dec_str n) := by rw [h]
  rw [val10_dec_str, val10_dec_str] at hv
  exact hv

lemma dec_str_go_chars (fuel : Nat) :
    ∀ n s, (∀ c ∈ s, 48 ≤ c.toNat ∧ c.toNat ≤ 57) →
      ∀ c ∈ dec_str_go fuel n s, 48 ≤ c.toNat ∧ c.toNat ≤ 57 := by
  induction fuel with
  | zero => intro n s hs; exact hs
  | succ fuel ih =>
    intro n s hs
    cases n with
    | zero => exact hs
    | succ m =>
      refine ih ((m + 1) / 10) _ ?_
      intro c hc
      rcases List.mem_cons.mp hc with h | h
      · subst h
        have hmod : (m + 1) % 10 < 10 := Nat.mod_lt (m + 1) (by omega)
        rw [toNat_ofNat_small _ (by omega)]
        omega
      · exact hs c h

lemma dec_str_chars (n : Nat) : ∀ c ∈ dec_str n, 48 ≤ c.toNat ∧ c.toNat ≤ 57 :=
  dec_str_go_chars n n [] (by simp)

lemma dec_str_ne_nil (n : Nat) (hn : 0 < n) : dec_str n ≠ [] := by
  cases n with
  | zero => omega
  | succ m =>
    show dec_str_go m ((m + 1) / 10) [_] ≠ []
    rw [dec_str_go_append]
    simp

lemma letters_digits_split :
    ∀ (a1 a2 b1 b2 : List Char),
      (∀ c ∈ a1, 65 ≤ c.toNat ∧ c.toNat ≤ 90) →
      (∀ c ∈ a2, 65 ≤ c.toNat ∧ c.toNat ≤ 90) →
      (∀ c ∈ b1, 48 ≤ c.toNat ∧ c.toNat ≤ 57) →
      (∀ c ∈ b2, 48 ≤ c.toNat ∧ c.toNat ≤ 57) →
      b1 ≠ [] → b2 ≠ [] → a1 ++ b1 = a2 ++ b2 → a1 = a2 ∧ b1 = b2 := by
  intro a1
  induction a1 with
  | nil =>
    intro a2 b1 b2 _ ha2 hb1 _ hb1n _ heq
    cases a2 with
    | nil => exact ⟨rfl, heq⟩
    | cons c a2t =>
      exfalso
      cases b1 with
      | nil => exact hb1n rfl
      | cons d b1t =>
        have hcd : d = c := by
          have := congrArg List.head? heq
          simpa using this
        have h1 := hb1 d (by simp)
        have h2 := ha2 c (by simp)
        rw [hcd] at h1
        omega
  | cons c a1t ih =>
    intro a2 b1 b2 ha1 ha2 hb1 hb2 hb1n hb2n heq
    cases a2 with
    | nil =>
      exfalso
      cases b2 with
      | nil => exact hb2n rfl
      | cons d b2t =>
        have hcd : c = d := by
          have := congrArg List.head? heq
          simpa using this
        have h1 := hb2 d (by simp)
        have h2 := ha1 c (by simp)
        rw [hcd] at h2
        omega
    | cons c2 a2t =>
      have hc : c = c2 := by
        have := congrArg List.head? heq
        simpa using this
      have htl : a1t ++ b1 = a2t ++ b2 := by
        have := congrArg List.tail heq
        simpa using this
      have := ih a2t b1 b2 (fun x hx => ha1 x (by simp [hx]))
        (fun x hx => ha2 x (by simp [hx])) hb1 hb2 hb1n hb2n htl
      exact ⟨by rw [hc, this.1], this.2⟩

lemma identifier_inj (c1 r1 c2 r2 : Nat) (h : identifier c1 r1 = identifier c2 r2) :
    c1 = c2 ∧ r1 = r2 := by
  unfold identifier at h
  have hs := letters_digits_split (col_letters c1) (col_letters c2)
    (dec_str (r1 + 1)) (dec_str (r2 + 1))
    (col_letters_chars c1) (col_letters_chars c2)
    (dec_str_chars (r1 + 1)) (dec_str_chars (r2 + 1))
    (dec_str_ne_nil (r1 + 1) (by omega)) (dec_str_ne_nil (r2 + 1) (by omega)) h
  refine ⟨col_letters_inj c1 c2 hs.1, ?_⟩
  have := dec_str_inj (r1 + 1) (r2 + 1) hs.2
  omega

/-- C2: the tile identifier col_letters(col) ++ str(row+1) is injective over
non-negative (column, row) pairs: distinct pairs always receive distinct
identifier strings. -/
theorem C2_identifier_injective (c1 r1 c2 r2 : Nat) (hne : (c1, r1) ≠ (c2, r2)) :
    identifier c1 r1 ≠ identifier c2 r2 := by
  intro heq
  have := identifier_inj c1 r1 c2 r2 heq
  exact hne (by rw [this.1, this.2])

theorem C2_identifier_injective_witness :
    ((0, 0) : Nat × Nat) ≠ (1, 0) ∧ identifier 0 0 ≠ identifier 1 0 :=
  ⟨by decide, C2_identifier_injective 0 0 1 0 (by decide)⟩

/-- A letter string is the bijective base-26 numeral of n exactly when it is
nonempty, uses only the letters A through Z (so every digit means 1 through
26, never zero), and decodes to the value n. -/
def IsBijBase26 (s : List Char) (n : Nat) : Prop :=
  s ≠ [] ∧ (∀ c ∈ s, 65 ≤ c.toNat ∧ c.toNat ≤ 90) ∧ val26 s = n

lemma val26_foldl_ge (cs : List Char) :
    ∀ a : Nat, a ≤ cs.foldl (fun a c => a * 26 + (c.toNat - 64)) a := by
  induction cs with
  | nil => intro a; simp
  | cons c cs ih =>
    intro a
    have h1 : a ≤ a * 26 + (c.toNat - 64) := by
      have : a ≤ a * 26 := Nat.le_mul_of_pos_right a (by omega)
      omega
    calc a ≤ a * 26 + (c.toNat - 64) := h1
      _ ≤ _ := ih _

lemma val26_pos (s : List Char) (hs : s ≠ [])
    (hc : ∀ c ∈ s, 65 ≤ c.toNat ∧ c.toNat ≤ 90) : 1 ≤ val26 s := by
  cases s with
  | nil => exact absurd rfl hs
  | cons c cs =>
    have hd := hc c (by simp)
    unfold val26
    simp only [List.foldl_cons]
    have h0 : 1 ≤ 0 * 26 + (c.toNat - 64) := by omega
    calc 1 ≤ 0 * 26 + (c.toNat - 64) := h0
      _ ≤ _ := val26_foldl_ge cs _

lemma col_letters_go_fuel :
    ∀ f1 f2 n, n ≤ f1 → n ≤ f2 → col_letters_go f1 n [] = col_letters_go f2 n [] := by
  intro f1
  induction f1 with
  | zero =>
    intro f2 n h1 _
    interval_cases n
    rw [col_letters_go_zero, col_letters_go_zero]
  | succ f1 ih =>
    intro f2 n h1 h2
    cases n with
    | zero => rw [col_letters_go_zero, col_letters_go_zero]
    | succ m =>
      cases f2 with
      | zero => omega
      | succ f2 =>
        show col_letters_go f1 (m / 26) [_] = col_letters_go f2 (m / 26) [_]
        rw [col_letters_go_append f1, col_letters_go_append f2]
        have hm1 : m / 26 ≤ f1 := le_trans (Nat.div_le_self m 26) (by omega)
        have hm2 : m / 26 ≤ f2 := le_trans (Nat.div_le_self m 26) (by omega)
        rw [ih f2 (m / 26) hm1 hm2]

lemma bij26_unique (s : List Char) :
    s ≠ [] → (∀ c ∈ s, 65 ≤ c.toNat ∧ c.toNat ≤ 90) →
      s = col_letters (val26 s - 1) := by
  induction s using List.reverseRecOn with
  | nil => intro hs _; exact absurd rfl hs
  | append_singleton s1 c ih =>
    intro _ hchars
    have hd := hchars c (by simp)
    have hval : val26 (s1 ++ [c]) = val26 s1 * 26 + (c.toNat - 64) := by
      unfold val26
      rw [List.foldl_append]
      simp
    set V := val26 s1 with hV
    set d := c.toNat - 64 with hdd
    have hd1 : 1 ≤ d := by omega
    have hd26 : d ≤ 26 := by omega
    set m := V * 26 + d - 1 with hm
    have hmv : val26 (s1 ++ [c]) - 1 = m := by omega
    rw [hmv]
    have hsucc : m + 1 = V * 26 + d := by omega
    have hmod : m % 26 = d - 1 := by omega
    have hdiv : m / 26 = V := by omega
    have hstep : col_letters m = col_letters_go m V [Char.ofNat (65 + (d - 1))] := by
      show col_letters_go (m + 1) (m + 1) [] = _
      rw [hsucc]
      have : V * 26 + d = (V * 26 + d - 1) + 1 := by omega
      rw [this]
      show col_letters_go m (((V * 26 + d - 1)) / 26)
        [Char.ofNat (65 + (V * 26 + d - 1) % 26)] = _
      rw [show ((V * 26 + d - 1)) / 26 = V from hdiv,
        show (V * 26 + d - 1) % 26 = d - 1 from hmod]
    have hchar : Char.ofNat (65 + (d - 1)) = c := by
      have : 65 + (d - 1) = c.toNat := by omega
      rw [this, Char.ofNat_toNat]
    rw [hstep, hchar, col_letters_go_append]
    cases hVz : V with
    | zero =>
      have hs1 : s1 = [] := by
        by_contra hne
        have := val26_pos s1 hne (fun x hx => hchars x (by simp [hx]))
        omega
      rw [hs1, col_letters_go_zero]
    | succ V2 =>
      have hs1ne : s1 ≠ [] := by
        intro hnil
        rw [hnil] at hV
        simp [val26] at hV
        omega
      have hs1 := ih hs1ne (fun x hx => hchars x (by simp [hx]))
      rw [← hVz]
      have hfuel : col_letters_go m V [] = col_letters_go V V [] := by
        have hVm : V ≤ m := by
          have : V ≤ V * 26 := Nat.le_mul_of_pos_right V (by omega)
          omega
        exact col_letters_go_fuel m V V hVm le_rfl
      rw [hfuel]
      have hcl : col_letters (V - 1) = col_letters_go V V [] := by
        show col_letters_go (V - 1 + 1) (V - 1 + 1) [] = _
        have hV1 : V - 1 + 1 = V := by omega
        rw [hV1]
      rw [← hcl, ← hs1]

/-- C5: col_letters is the standard bijective base-26 encoding over the
letters A through Z of its zero-based argument: col 0 gives A, 25 gives Z,
26 gives AA, and in general col_letters col is the unique bijective base-26
numeral (no digit meaning zero) of col + 1. -/
theorem C5_col_letters_bijective_base26 :
    col_letters 0 = ['A'] ∧ col_letters 25 = ['Z'] ∧ col_letters 26 = ['A', 'A'] ∧
    ∀ col : Nat, IsBijBase26 (col_letters col) (col + 1) ∧
      ∀ s, IsBijBase26 s (col + 1) → s = col_letters col := by
  refine ⟨by decide, by decide, by decide, ?_⟩
  intro col
  constructor
  · exact ⟨col_letters_ne_nil col, col_letters_chars col, val26_col_letters col⟩
  · intro s hs
    obtain ⟨h1, h2, h3⟩ := hs
    have := bij26_unique s h1 h2
    rw [h3] at this
    simpa using this

theorem C5_witness :
    IsBijBase26 ['A', 'B'] 28 ∧ (['A', 'B'] : List Char) = col_letters 27 := by
  have h : IsBijBase26 ['A', 'B'] 28 := ⟨by decide, by decide, by decide⟩
  exact ⟨h, (C5_col_letters_bijective_base26.2.2.2 27).2 ['A', 'B'] h⟩

/-- math.radians as used at app.py line 182: degrees to radians. -/
noncomputable def radians (x : ℝ) : ℝ := x * (Real.pi / 180)

/-- meters_per_deg (app.py lines 180-183): the pair
(m_per_deg_lon, m_per_deg_lat) with m_per_deg_lat the constant 111320.0 and
m_per_deg_lon equal to 111320.0 scaled by the cosine of the latitude. -/
noncomputable def meters_per_deg (lat_deg : ℝ) : ℝ × ℝ :=
  (111320.0 * Real.cos (radians lat_deg), 111320.0)

/-- ll_to_xy closure (app.py lines 193-196) over the reals, made explicit in
the reference point (lon0, lat0) that the source closure captures. -/
noncomputable def ll_to_xy (lon0 lat0 lon lat : ℝ) : ℝ × ℝ :=
  ((lon - lon0) * (meters_per_deg lat0).1, (lat - lat0) * (meters_per_deg lat0).2)

/-- xy_to_ll closure (app.py lines 197-200) over the reals. -/
noncomputable def xy_to_ll (lon0 lat0 x y : ℝ) : ℝ × ℝ :=
  (lon0 + x / (meters_per_deg lat0).1, lat0 + y / (meters_per_deg lat0).2)

/-- C7: whenever the cosine of the reference latitude is nonzero, projecting
a coordinate to the local plane and back is the identity: xy_to_ll is the
exact inverse of ll_to_xy over exact (real) arithmetic. -/
theorem C7_projection_roundtrip (lon0 lat0 lon lat : ℝ)
    (h : Real.cos (radians lat0) ≠ 0) :
    xy_to_ll lon0 lat0 (ll_to_xy lon0 lat0 lon lat).1 (ll_to_xy lon0 lat0 lon lat).2 =
      (lon, lat) := by
  have hlon : (meters_per_deg lat0).1 ≠ 0 := by
    unfold meters_per_deg
    exact mul_ne_zero (by norm_num) h
  have hlat : (meters_per_deg lat0).2 ≠ 0 := by
    unfold meters_per_deg
    norm_num
  unfold xy_to_ll ll_to_xy
  have h1 : lon0 + (lon - lon0) * (meters_per_deg lat0).1 / (meters_per_deg lat0).1 = lon := by
    field_simp
  have h2 : lat0 + (lat - lat0) * (meters_per_deg lat0).2 / (meters_per_deg lat0).2 = lat := by
    field_simp
  rw [Prod.mk.injEq]
  exact ⟨h1, h2⟩

theorem C7_witness :
    Real.cos (radians 0) ≠ 0 ∧
      xy_to_ll 0 0 (ll_to_xy 0 0 3 4).1 (ll_to_xy 0 0 3 4).2 = (3, 4) := by
  have h : Real.cos (radians 0) ≠ 0 := by
    unfold radians
    rw [zero_mul, Real.cos_zero]
    norm_num
  exact ⟨h, C7_projection_roundtrip 0 0 3 4 h⟩

/-- C9: the longitude scale 111320 cos(radians lat0) that the inverse
projection divides by is nonzero for every centroid latitude strictly
between the poles, and is exactly zero when the centroid sits at either
pole, where the division-by-zero branch of xy_to_ll becomes reachable. -/
theorem C9_longitude_scale_zero_iff_pole :
    (∀ lat0 : ℝ, |lat0| < 90 → (meters_per_deg lat0).1 ≠ 0) ∧
      (meters_per_deg 90).1 = 0 ∧ (meters_per_deg (-90)).1 = 0 := by
  refine ⟨?_, ?_, ?_⟩
  · intro lat0 habs
    have hb := abs_lt.mp habs
    unfold meters_per_deg
    refine mul_ne_zero (by norm_num) (ne_of_gt ?_)
    apply Real.cos_pos_of_mem_Ioo
    constructor
    · unfold radians
      have hpi := Real.pi_pos
      nlinarith [hb.1]
    · unfold radians
      have hpi := Real.pi_pos
      nlinarith [hb.2]
  · unfold meters_per_deg
    have h90 : radians 90 = Real.pi / 2 := by unfold radians; ring
    rw [h90, Real.cos_pi_div_two, mul_zero]
  · unfold meters_per_deg
    have h90 : radians (-90) = -(Real.pi / 2) := by unfold radians; ring
    rw [h90, Real.cos_neg, Real.cos_pi_div_two, mul_zero]

theorem C9_witness : |(0 : ℝ)| < 90 ∧ (meters_per_deg 0).1 ≠ 0 :=
  ⟨by norm_num, C9_longitude_scale_zero_iff_pole.1 0 (by norm_num)⟩

/-- Shapely multipolygon of the active boundary, abstracted at the interface
the generator uses (app.py lines 185-228): its centroid coordinates, its
bounds, and the shapely intersects predicate, taken as an oracle on the
5-point ring of a candidate cell polygon. -/
structure MultiPolygonB where
  centroid_x : ℚ
  centroid_y : ℚ
  minx : ℚ
  miny : ℚ
  maxx : ℚ
  maxy : ℚ
  intersects : List (ℚ × ℚ) → Bool

/-- The local projection context built at app.py lines 190-200: the captured
reference point and the two scale factors returned by meters_per_deg. -/
structure LocalProj where
  lon0 : ℚ
  lat0 : ℚ
  mlon : ℚ
  mlat : ℚ
deriving DecidableEq

/-- ll_to_xy closure (app.py lines 193-196) in the rational development. -/
def LocalProj.ll_to_xy (P : LocalProj) (lon lat : ℚ) : ℚ × ℚ :=
  ((lon - P.lon0) * P.mlon, (lat - P.lat0) * P.mlat)

/-- xy_to_ll closure (app.py lines 197-200) in the rational development.
Rational division by zero is total and returns zero; the division-by-zero
claims about the scale factors are settled over the reals above. -/
def LocalProj.xy_to_ll (P : LocalProj) (x y : ℚ) : ℚ × ℚ :=
  (P.lon0 + x / P.mlon, P.lat0 + y / P.mlat)

/-- square_xy (app.py line 215): the closed 5-vertex local-space ring of the
cell whose lower-left corner is (x, y). -/
def square_xy (tile_m x y : ℚ) : List (ℚ × ℚ) :=
  [(x, y), (x + tile_m, y), (x + tile_m, y + tile_m), (x, y + tile_m), (x, y)]

/-- square_ll (app.py line 216): the same ring projected back to geographic
coordinates vertex by vertex. -/
def square_ll (P : LocalProj) (tile_m x y : ℚ) : List (ℚ × ℚ) :=
  (square_xy tile_m x y).map (fun p => P.xy_to_ll p.1 p.2)

/-- Centroid of a simple closed ring by the standard shoelace formula.  This
models the shapely centroid of the cell polygon read at app.py line 220; on
the convex quadrilaterals the generator builds, the shapely centroid is
exactly this area-weighted formula. -/
def ringCentroid (ps : List (ℚ × ℚ)) : ℚ × ℚ :=
  let es := ps.zip ps.tail
  let a : ℚ := es.foldl (fun s e => s + (e.1.1 * e.2.2 - e.2.1 * e.1.2)) 0
  let cx : ℚ := es.foldl (fun s e => s + (e.1.1 + e.2.1) * (e.1.1 * e.2.2 - e.2.1 * e.1.2)) 0
  let cy : ℚ := es.foldl (fun s e => s + (e.1.2 + e.2.2) * (e.1.1 * e.2.2 - e.2.1 * e.1.2)) 0
  (cx / (3 * a), cy / (3 * a))

/-- One tile record as appended at app.py lines 219-225: the identifier of
(col, row), the unclipped projected square ring, and its centroid. -/
structure Tile where
  tile_id : List Char
  polygon : List (ℚ × ℚ)
  centroid : ℚ × ℚ
deriving DecidableEq

/-- Construction of the tile record for the cell at local position (x, y)
and scan indices (col, row) (app.py lines 215-225). -/
def mkTile (P : LocalProj) (tile_m x y : ℚ) (col row : Nat) : Tile :=
  { tile_id := identifier col row
  , polygon := square_ll P tile_m x y
  , centroid := ringCentroid (square_ll P tile_m x y) }

/-- Inner while loop over x (app.py lines 212-226) with explicit fuel: the
source loop is unbounded, and a none result means the loop did not finish
within the given fuel. -/
def colLoop (B : MultiPolygonB) (P : LocalProj) (tile_m x1 y : ℚ) (row : Nat) :
    Nat → ℚ → Nat → Option (List Tile)
  | 0, _, _ => none
  | fuel + 1, x, col =>
    if x < x1 then
      match colLoop B P tile_m x1 y row fuel (x + tile_m) (col + 1) with
      | none => none
      | some rest =>
        if B.intersects (square_ll P tile_m x y) then
          some (mkTile P tile_m x y col row :: rest)
        else
          some rest
    else
      some []

/-- Outer while loop over y (app.py lines 209-227) with explicit fuel; each
row restarts the inner loop from x0 and col 0 with the full inner fuel. -/
def rowLoop (B : MultiPolygonB) (P : LocalProj) (tile_m x0 x1 y1 : ℚ) (Fc : Nat) :
    Nat → ℚ → Nat → Option (List Tile)
  | 0, _, _ => none
  | fuel + 1, y, row =>
    if y < y1 then
      match colLoop B P tile_m x1 y row Fc x0 0,
          rowLoop B P tile_m x0 x1 y1 Fc fuel (y + tile_m) (row + 1) with
      | some cs, some rest => some (cs ++ rest)
      | _, _ => none
    else
      some []

/-- The projection context the generator builds for a boundary (app.py lines
190-191): reference point at the centroid, longitude scale 111320 times the
cosine of the centroid latitude, latitude scale 111320.  The rational
argument coslat0 stands for the value of math.cos(math.radians(lat0)),
whose real definition is meters_per_deg above. -/
def gridProj (B : MultiPolygonB) (coslat0 : ℚ) : LocalProj :=
  ⟨B.centroid_x, B.centroid_y, 111320 * coslat0, 111320⟩

/-- Lower-left x of the scanned local rectangle (app.py lines 202-206). -/
def gridX0 (B : MultiPolygonB) (coslat0 : ℚ) : ℚ :=
  min ((gridProj B coslat0).ll_to_xy B.minx B.miny).1
    ((gridProj B coslat0).ll_to_xy B.maxx B.maxy).1

/-- Lower-left y of the scanned local rectangle (app.py lines 202-206). -/
def gridY0 (B : MultiPolygonB) (coslat0 : ℚ) : ℚ :=
  min ((gridProj B coslat0).ll_to_xy B.minx B.miny).2
    ((gridProj B coslat0).ll_to_xy B.maxx B.maxy).2

/-- Upper-right x of the scanned local rectangle (app.py lines 202-206). -/
def gridX1 (B : MultiPolygonB) (coslat0 : ℚ) : ℚ :=
  max ((gridProj B coslat0).ll_to_xy B.minx B.miny).1
    ((gridProj B coslat0).ll_to_xy B.maxx B.maxy).1

/-- Upper-right y of the scanned local rectangle (app.py lines 202-206). -/
def gridY1 (B : MultiPolygonB) (coslat0 : ℚ) : ℚ :=
  max ((gridProj B coslat0).ll_to_xy B.minx B.miny).2
    ((gridProj B coslat0).ll_to_xy B.maxx B.maxy).2

/-- grid_tiles_for_boundary (app.py lines 185-228): project the bounding box
corners, take the covering local rectangle, and run the row/column scan.
The fuel F bounds both loops; the source loops are unbounded. -/
def grid_tiles_for_boundary (F : Nat) (B : MultiPolygonB) (coslat0 tile_m : ℚ) :
    Option (List Tile) :=
  rowLoop B (gridProj B coslat0) tile_m (gridX0 B coslat0) (gridX1 B coslat0)
    (gridY1 B coslat0) F F (gridY0 B coslat0) 0

/-- The cell at scan indices (col, row), as the generator would emit it. -/
def cellTile (B : MultiPolygonB) (coslat0 tile_m : ℚ) (col row : Nat) : Tile :=
  mkTile (gridProj B coslat0) tile_m (gridX0 B coslat0 + col * tile_m)
    (gridY0 B coslat0 + row * tile_m) col row

/-- The projected square ring of the cell at scan indices (col, row). -/
def cellRing (B : MultiPolygonB) (coslat0 tile_m : ℚ) (col row : Nat) : List (ℚ × ℚ) :=
  square_ll (gridProj B coslat0) tile_m (gridX0 B coslat0 + col * tile_m)
    (gridY0 B coslat0 + row * tile_m)

/-- The scan at app.py lines 209-227 visits the cell (col, row): its row
start is below y1 and its column start is below x1. -/
abbrev ScannedCell (B : MultiPolygonB) (coslat0 tile_m : ℚ) (col row : Nat) : Prop :=
  gridY0 B coslat0 + row * tile_m < gridY1 B coslat0 ∧
    gridX0 B coslat0 + col * tile_m < gridX1 B coslat0

lemma colLoop_some_mem (B : MultiPolygonB) (P : LocalProj) (t x1 y : ℚ) (row : Nat)
    (ht : 0 < t) :
    ∀ (fuel : Nat) (x : ℚ) (col : Nat) (ts : List Tile),
      colLoop B P t x1 y row fuel x col = some ts →
      ∀ tl, tl ∈ ts ↔ ∃ k : Nat, x + (k : ℚ) * t < x1 ∧
        B.intersects (square_ll P t (x + (k : ℚ) * t) y) = true ∧
        tl = mkTile P t (x + (k : ℚ) * t) y (col + k) row := by
  intro fuel
  induction fuel with
  | zero => intro x col ts h; exact absurd h (by simp [colLoop])
  | succ fuel ih =>
    intro x col ts h tl
    simp only [colLoop] at h
    split at h
    · rename_i hx
      cases hrec : colLoop B P t x1 y row fuel (x + t) (col + 1) with
      | none => rw [hrec] at h; simp at h
      | some rest =>
        rw [hrec] at h
        simp only at h
        have hR := ih (x + t) (col + 1) rest hrec tl
        split at h
        · rename_i hb
          have hts : ts = mkTile P t x y col row :: rest := by
            exact (Option.some.inj h).symm
          subst hts
          constructor
          · intro hmem
            rcases List.mem_cons.mp hmem with h0 | hr
            · refine ⟨0, ?_, ?_, ?_⟩
              · simpa using hx
              · simpa using hb
              · simpa using h0
            · obtain ⟨k, hk1, hk2, hk3⟩ := hR.mp hr
              have hxk : x + ((k + 1 : Nat) : ℚ) * t = x + t + (k : ℚ) * t := by
                push_cast
                ring
              have hck : col + (k + 1) = col + 1 + k := by omega
              refine ⟨k + 1, ?_, ?_, ?_⟩
              · rw [hxk]; exact hk1
              · rw [hxk]; exact hk2
              · rw [hxk, hck]; exact hk3
          · rintro ⟨k, hk1, hk2, hk3⟩
            cases k with
            | zero =>
              apply List.mem_cons.mpr
              left
              simpa using hk3
            | succ k =>
              apply List.mem_cons.mpr
              right
              apply hR.mpr
              have hxk : x + ((k + 1 : Nat) : ℚ) * t = x + t + (k : ℚ) * t := by
                push_cast
                ring
              have hck : col + (k + 1) = col + 1 + k := by omega
              exact ⟨k, by rw [← hxk]; exact hk1, by rw [← hxk]; exact hk2,
                by rw [← hxk, ← hck]; exact hk3⟩
        · rename_i hb
          have hts : ts = rest := (Option.some.inj h).symm
          subst hts
          constructor
          · intro hmem
            obtain ⟨k, hk1, hk2, hk3⟩ := hR.mp hmem
            have hxk : x + ((k + 1 : Nat) : ℚ) * t = x + t + (k : ℚ) * t := by
              push_cast
              ring
            have hck : col + (k + 1) = col + 1 + k := by omega
            refine ⟨k + 1, ?_, ?_, ?_⟩
            · rw [hxk]; exact hk1
            · rw [hxk]; exact hk2
            · rw [hxk, hck]; exact hk3
          · rintro ⟨k, hk1, hk2, hk3⟩
            cases k with
            | zero =>
              exfalso
              apply hb
              simpa using hk2
            | succ k =>
              apply hR.mpr
              have hxk : x + ((k + 1 : Nat) : ℚ) * t = x + t + (k : ℚ) * t := by
                push_cast
                ring
              have hck : col + (k + 1) = col + 1 + k := by omega
              exact ⟨k, by rw [← hxk]; exact hk1, by rw [← hxk]; exact hk2,
                by rw [← hxk, ← hck]; exact hk3⟩
    · rename_i hx
      have hts : ts = [] := (Option.some.inj h).symm
      subst hts
      simp only [List.not_mem_nil, false_iff]
      rintro ⟨k, hk1, _, _⟩
      have hk0 : (0 : ℚ) ≤ (k : ℚ) * t := mul_nonneg (by positivity) ht.le
      have hxx : ¬ x < x1 := hx
      rw [not_lt] at hxx
      linarith

lemma rowLoop_some_mem (B : MultiPolygonB) (P : LocalProj) (t x0 x1 y1 : ℚ) (Fc : Nat)
    (ht : 0 < t) :
    ∀ (fuel : Nat) (y : ℚ) (row : Nat) (ts : List Tile),
      rowLoop B P t x0 x1 y1 Fc fuel y row = some ts →
      ∀ tl, tl ∈ ts ↔ ∃ j k : Nat, y + (j : ℚ) * t < y1 ∧ x0 + (k : ℚ) * t < x1 ∧
        B.intersects (square_ll P t (x0 + (k : ℚ) * t) (y + (j : ℚ) * t)) = true ∧
        tl = mkTile P t (x0 + (k : ℚ) * t) (y + (j : ℚ) * t) k (row + j) := by
  intro fuel
  induction fuel with
  | zero => intro y row ts h; exact absurd h (by simp [rowLoop])
  | succ fuel ih =>
    intro y row ts h tl
    simp only [rowLoop] at h
    split at h
    · rename_i hy
      cases hcs : colLoop B P t x1 y row Fc x0 0 with
      | none => rw [hcs] at h; simp at h
      | some cs =>
        cases hrest : rowLoop B P t x0 x1 y1 Fc fuel (y + t) (row + 1) with
        | none => rw [hcs, hrest] at h; simp at h
        | some rest =>
          rw [hcs, hrest] at h
          simp only at h
          have hts : ts = cs ++ rest := (Option.some.inj h).symm
          subst hts
          have hC := colLoop_some_mem B P t x1 y row ht Fc x0 0 cs hcs tl
          have hR := ih (y + t) (row + 1) rest hrest tl
          rw [List.mem_append, hC, hR]
          constructor
          · rintro (⟨k, hk1, hk2, hk3⟩ | ⟨j, k, hj1, hj2, hj3, hj4⟩)
            · refine ⟨0, k, ?_, hk1, ?_, ?_⟩
              · simpa using hy
              · simpa using hk2
              · simpa using hk3
            · have hyj : y + ((j + 1 : Nat) : ℚ) * t = y + t + (j : ℚ) * t := by
                push_cast
                ring
              have hrj : row + (j + 1) = row + 1 + j := by omega
              refine ⟨j + 1, k, ?_, hj2, ?_, ?_⟩
              · rw [hyj]; exact hj1
              · rw [hyj]; exact hj3
              · rw [hyj, hrj]; exact hj4
          · rintro ⟨j, k, hj1, hj2, hj3, hj4⟩
            cases j with
            | zero =>
              left
              refine ⟨k, hj2, ?_, ?_⟩
              · simpa using hj3
              · simpa using hj4
            | succ j =>
              right
              have hyj : y + ((j + 1 : Nat) : ℚ) * t = y + t + (j : ℚ) * t := by
                push_cast
                ring
              have hrj : row + (j + 1) = row + 1 + j := by omega
              exact ⟨j, k, by rw [← hyj]; exact hj1, hj2, by rw [← hyj]; exact hj3,
                by rw [← hyj, ← hrj]; exact hj4⟩
    · rename_i hy
      have hts : ts = [] := (Option.some.inj h).symm
      subst hts
      simp only [List.not_mem_nil, false_iff]
      rintro ⟨j, _, hj1, _, _, _⟩
      have hj0 : (0 : ℚ) ≤ (j : ℚ) * t := mul_nonneg (by positivity) ht.le
      rw [not_lt] at hy
      linarith

lemma grid_some_mem (F : Nat) (B : MultiPolygonB) (coslat0 t : ℚ) (ht : 0 < t)
    (ts : List Tile) (h : grid_tiles_for_boundary F B coslat0 t = some ts) :
    ∀ tl, tl ∈ ts ↔ ∃ col row : Nat, ScannedCell B coslat0 t col row ∧
      B.intersects (cellRing B coslat0 t col row) = true ∧
      tl = cellTile B coslat0 t col row := by
  intro tl
  have hR := rowLoop_some_mem B (gridProj B coslat0) t (gridX0 B coslat0)
    (gridX1 B coslat0) (gridY1 B coslat0) F ht F (gridY0 B coslat0) 0 ts h tl
  rw [hR]
  constructor
  · rintro ⟨j, k, h1, h2, h3, h4⟩
    refine ⟨k, j, ⟨h1, h2⟩, ?_, ?_⟩
    · simpa [cellRing] using h3
    · simpa [cellTile] using h4
  · rintro ⟨col, row, ⟨h1, h2⟩, h3, h4⟩
    refine ⟨row, col, h1, h2, ?_, ?_⟩
    · simpa [cellRing] using h3
    · simpa [cellTile] using h4

/-- C3: for a terminating generation run with positive tile size, a scanned
cell (col, row) is emitted exactly when the shapely oracle reports a
non-empty intersection of its projected square ring with the boundary, and
every emitted tile is such an unclipped full square cell. -/
theorem C3_cell_in_output_iff_intersects (F : Nat) (B : MultiPolygonB)
    (coslat0 tile_m : ℚ) (ts : List Tile) (ht : 0 < tile_m)
    (hg : grid_tiles_for_boundary F B coslat0 tile_m = some ts) :
    (∀ col row : Nat, ScannedCell B coslat0 tile_m col row →
      (cellTile B coslat0 tile_m col row ∈ ts ↔
        B.intersects (cellRing B coslat0 tile_m col row) = true)) ∧
    (∀ tl ∈ ts, ∃ col row : Nat, ScannedCell B coslat0 tile_m col row ∧
      B.intersects (cellRing B coslat0 tile_m col row) = true ∧
      tl = cellTile B coslat0 tile_m col row) := by
  have hmem := grid_some_mem F B coslat0 tile_m ht ts hg
  refine ⟨?_, ?_⟩
  · intro col row hsc
    constructor
    · intro hin
      obtain ⟨c2, r2, hsc2, hb2, he⟩ := (hmem _).mp hin
      have hid : identifier col row = identifier c2 r2 := by
        have := congrArg Tile.tile_id he
        simpa [cellTile, mkTile] using this
      obtain ⟨hc, hr⟩ := identifier_inj _ _ _ _ hid
      rw [hc, hr]
      exact hb2
    · intro hb
      exact (hmem _).mpr ⟨col, row, hsc, hb, rfl⟩
  · intro tl htl
    exact (hmem _).mp htl

/-- Concrete boundary used to instantiate the grid theorems: a rectangle of
one thousandth of a degree on a side with its lower-left corner at the
origin, paired with a shapely oracle that reports intersection for every
ring. -/
def B0 : MultiPolygonB :=
  { centroid_x := 0, centroid_y := 0, minx := 0, miny := 0
  , maxx := 1 / 1000, maxy := 1 / 1000, intersects := fun _ => true }

theorem C3_witness :
    ∃ ts, grid_tiles_for_boundary 10 B0 1 50 = some ts ∧
      (cellTile B0 1 50 0 0 ∈ ts ↔ B0.intersects (cellRing B0 1 50 0 0) = true) := by
  have hs : (grid_tiles_for_boundary 10 B0 1 50).isSome = true := by
    with_unfolding_all decide
  obtain ⟨ts, hts⟩ := Option.isSome_iff_exists.mp hs
  exact ⟨ts, hts,
    (C3_cell_in_output_iff_intersects 10 B0 1 50 ts (by norm_num) hts).1 0 0
      (by with_unfolding_all decide)⟩

lemma colLoop_nonpos_none (B : MultiPolygonB) (P : LocalProj) (t x1 y : ℚ) (row : Nat)
    (ht : t ≤ 0) :
    ∀ (fuel : Nat) (x : ℚ) (col : Nat), x < x1 →
      colLoop B P t x1 y row fuel x col = none := by
  intro fuel
  induction fuel with
  | zero => intro x col _; rfl
  | succ fuel ih =>
    intro x col hx
    simp only [colLoop]
    rw [if_pos hx, ih (x + t) (col + 1) (by linarith)]

lemma colLoop_stop (B : MultiPolygonB) (P : LocalProj) (t x1 y : ℚ) (row : Nat)
    (fuel : Nat) (x : ℚ) (col : Nat) (hx : ¬ x < x1) :
    colLoop B P t x1 y row fuel x col = none ∨
      colLoop B P t x1 y row fuel x col = some [] := by
  cases fuel with
  | zero => left; rfl
  | succ fuel =>
    right
    simp only [colLoop]
    rw [if_neg hx]

lemma rowLoop_nonpos_none (B : MultiPolygonB) (P : LocalProj) (t x0 x1 y1 : ℚ)
    (Fc : Nat) (ht : t ≤ 0) :
    ∀ (fuel : Nat) (y : ℚ) (row : Nat), y < y1 →
      rowLoop B P t x0 x1 y1 Fc fuel y row = none := by
  intro fuel
  induction fuel with
  | zero => intro y row _; rfl
  | succ fuel ih =>
    intro y row hy
    simp only [rowLoop]
    rw [if_pos hy]
    by_cases hx0 : x0 < x1
    · rw [colLoop_nonpos_none B P t x1 y row ht Fc x0 0 hx0]
    · rcases colLoop_stop B P t x1 y row Fc x0 0 hx0 with hcl | hcl
      · rw [hcl]
      · rw [hcl, ih (y + t) (row + 1) (by linarith)]

/-- C1: the code has no InvalidParameter check for a non-positive tile size.
With tile_m at most zero and a boundary whose bounding box is non-degenerate
in latitude, the y scan loop never reaches its exit condition: for every
fuel bound the generator has still not produced a result, which models the
source loop running forever, so the endpoint neither fails fast nor reaches
its upsert phase.  This refutes the claimed InvalidParameter failure and
supports the claim only in that no cells are ever upserted. -/
theorem C1_nonpositive_tile_m_never_terminates (F : Nat) (B : MultiPolygonB)
    (coslat0 tile_m : ℚ) (ht : tile_m ≤ 0) (hy : B.miny < B.maxy) :
    grid_tiles_for_boundary F B coslat0 tile_m = none := by
  have hy01 : gridY0 B coslat0 < gridY1 B coslat0 := by
    have hab : (B.miny - B.centroid_y) * 111320 < (B.maxy - B.centroid_y) * 111320 := by
      have hsub : B.miny - B.centroid_y < B.maxy - B.centroid_y := by linarith
      exact mul_lt_mul_of_pos_right hsub (by norm_num)
    have h1 : gridY0 B coslat0 ≤ (B.miny - B.centroid_y) * 111320 := min_le_left _ _
    have h2 : (B.maxy - B.centroid_y) * 111320 ≤ gridY1 B coslat0 := le_max_right _ _
    linarith
  exact rowLoop_nonpos_none B (gridProj B coslat0) tile_m (gridX0 B coslat0)
    (gridX1 B coslat0) (gridY1 B coslat0) F ht F (gridY0 B coslat0) 0 hy01

theorem C1_witness : grid_tiles_for_boundary 10 B0 1 0 = none :=
  C1_nonpositive_tile_m_never_terminates 10 B0 1 0 (by norm_num)
    (by with_unfolding_all decide)

/-- The geographic point (plon, plat), carried to the local plane by the
projection the generator uses, falls inside the closed square footprint of
the cell at scan indices (col, row). -/
abbrev InFootprint (B : MultiPolygonB) (coslat0 tile_m : ℚ) (col row : Nat)
    (plon plat : ℚ) : Prop :=
  gridX0 B coslat0 + col * tile_m ≤ ((gridProj B coslat0).ll_to_xy plon plat).1 ∧
    ((gridProj B coslat0).ll_to_xy plon plat).1 ≤ gridX0 B coslat0 + col * tile_m + tile_m ∧
    gridY0 B coslat0 + row * tile_m ≤ ((gridProj B coslat0).ll_to_xy plon plat).2 ∧
    ((gridProj B coslat0).ll_to_xy plon plat).2 ≤ gridY0 B coslat0 + row * tile_m + tile_m

/-- C4: for a terminating generation run with positive tile size and a
positive longitude scale, every point strictly inside the bounding box of
the boundary lies in the square footprint of some emitted cell, provided the
shapely oracle reports an intersection whenever a scanned square footprint
contains the point.  The two interval hypotheses and the oracle hypothesis
are exactly what holds of a point strictly interior to the boundary
multipolygon: interior points are strictly inside the bounding box, and a
square containing an interior point meets the multipolygon. -/
theorem C4_interior_point_covered (F : Nat) (B : MultiPolygonB)
    (coslat0 tile_m plon plat : ℚ) (ts : List Tile)
    (ht : 0 < tile_m) (hcos : 0 < coslat0)
    (hg : grid_tiles_for_boundary F B coslat0 tile_m = some ts)
    (hpx1 : B.minx < plon) (hpx2 : plon < B.maxx)
    (hpy1 : B.miny < plat) (hpy2 : plat < B.maxy)
    (hsound : ∀ col row : Nat, ScannedCell B coslat0 tile_m col row →
      InFootprint B coslat0 tile_m col row plon plat →
      B.intersects (cellRing B coslat0 tile_m col row) = true) :
    ∃ col row : Nat, ScannedCell B coslat0 tile_m col row ∧
      cellTile B coslat0 tile_m col row ∈ ts ∧
      InFootprint B coslat0 tile_m col row plon plat := by
  have hm : (0 : ℚ) < 111320 * coslat0 := by positivity
  have haxbx : (B.minx - B.centroid_x) * (111320 * coslat0) <
      (B.maxx - B.centroid_x) * (111320 * coslat0) :=
    mul_lt_mul_of_pos_right (by linarith) hm
  have hayby : (B.miny - B.centroid_y) * 111320 < (B.maxy - B.centroid_y) * 111320 :=
    mul_lt_mul_of_pos_right (by linarith) (by norm_num)
  have hax : gridX0 B coslat0 = (B.minx - B.centroid_x) * (111320 * coslat0) :=
    min_eq_left (le_of_lt haxbx)
  have hbx : gridX1 B coslat0 = (B.maxx - B.centroid_x) * (111320 * coslat0) :=
    max_eq_right (le_of_lt haxbx)
  have hay : gridY0 B coslat0 = (B.miny - B.centroid_y) * 111320 :=
    min_eq_left (le_of_lt hayby)
  have hby : gridY1 B coslat0 = (B.maxy - B.centroid_y) * 111320 :=
    max_eq_right (le_of_lt hayby)
  have hpx : ((gridProj B coslat0).ll_to_xy plon plat).1 =
      (plon - B.centroid_x) * (111320 * coslat0) := rfl
  have hpy : ((gridProj B coslat0).ll_to_xy plon plat).2 =
      (plat - B.centroid_y) * 111320 := rfl
  have haxpx : (B.minx - B.centroid_x) * (111320 * coslat0) <
      (plon - B.centroid_x) * (111320 * coslat0) :=
    mul_lt_mul_of_pos_right (by linarith) hm
  have hpxbx : (plon - B.centroid_x) * (111320 * coslat0) <
      (B.maxx - B.centroid_x) * (111320 * coslat0) :=
    mul_lt_mul_of_pos_right (by linarith) hm
  have haypy : (B.miny - B.centroid_y) * 111320 < (plat - B.centroid_y) * 111320 :=
    mul_lt_mul_of_pos_right (by linarith) (by norm_num)
  have hpyby : (plat - B.centroid_y) * 111320 < (B.maxy - B.centroid_y) * 111320 :=
    mul_lt_mul_of_pos_right (by linarith) (by norm_num)
  set px := (plon - B.centroid_x) * (111320 * coslat0) with hpxdef
  set py := (plat - B.centroid_y) * 111320 with hpydef
  set ax := (B.minx - B.centroid_x) * (111320 * coslat0) with haxdef
  set ay := (B.miny - B.centroid_y) * 111320 with haydef
  set col := Nat.floor ((px - ax) / tile_m) with hcoldef
  set row := Nat.floor ((py - ay) / tile_m) with hrowdef
  have hxle : (col : ℚ) * tile_m ≤ px - ax := by
    have h1 : (col : ℚ) ≤ (px - ax) / tile_m :=
      Nat.floor_le (div_nonneg (by linarith) ht.le)
    exact (le_div_iff₀ ht).mp h1
  have hxlt : px - ax < ((col : ℚ) + 1) * tile_m := by
    have h2 : (px - ax) / tile_m < (col : ℚ) + 1 := Nat.lt_floor_add_one _
    exact (div_lt_iff₀ ht).mp h2
  have hyle : (row : ℚ) * tile_m ≤ py - ay := by
    have h1 : (row : ℚ) ≤ (py - ay) / tile_m :=
      Nat.floor_le (div_nonneg (by linarith) ht.le)
    exact (le_div_iff₀ ht).mp h1
  have hylt : py - ay < ((row : ℚ) + 1) * tile_m := by
    have h2 : (py - ay) / tile_m < (row : ℚ) + 1 := Nat.lt_floor_add_one _
    exact (div_lt_iff₀ ht).mp h2
  have hscan : ScannedCell B coslat0 tile_m col row := by
    constructor
    · rw [hay, hby]
      have : (row : ℚ) * tile_m ≤ py - ay := hyle
      linarith
    · rw [hax, hbx]
      have : (col : ℚ) * tile_m ≤ px - ax := hxle
      linarith
  have hfp : InFootprint B coslat0 tile_m col row plon plat := by
    refine ⟨?_, ?_, ?_, ?_⟩
    · rw [hpx, hax]; linarith
    · rw [hpx, hax]; linarith
    · rw [hpy, hay]; linarith
    · rw [hpy, hay]; linarith
  have hb := hsound col row hscan hfp
  have hmem := (grid_some_mem F B coslat0 tile_m ht ts hg
    (cellTile B coslat0 tile_m col row)).mpr ⟨col, row, hscan, hb, rfl⟩
  exact ⟨col, row, hscan, hmem, hfp⟩

theorem C4_witness :
    ∃ ts, grid_tiles_for_boundary 10 B0 1 50 = some ts ∧
      ∃ col row : Nat, ScannedCell B0 1 50 col row ∧
        cellTile B0 1 50 col row ∈ ts ∧
        InFootprint B0 1 50 col row (mkRat 1 2000) (mkRat 1 2000) := by
  have hs : (grid_tiles_for_boundary 10 B0 1 50).isSome = true := by
    with_unfolding_all decide
  obtain ⟨ts, hts⟩ := Option.isSome_iff_exists.mp hs
  refine ⟨ts, hts, ?_⟩
  exact C4_interior_point_covered 10 B0 1 50 (mkRat 1 2000) (mkRat 1 2000) ts
    (by norm_num) (by norm_num) hts
    (by with_unfolding_all decide) (by with_unfolding_all decide)
    (by with_unfolding_all decide) (by with_unfolding_all decide)
    (fun col row _ _ => rfl)

lemma proj_roundtrip_xy (P : LocalProj) (hm : P.mlon ≠ 0) (hn : P.mlat ≠ 0) (x y : ℚ) :
    P.ll_to_xy (P.xy_to_ll x y).1 (P.xy_to_ll x y).2 = (x, y) := by
  unfold LocalProj.ll_to_xy LocalProj.xy_to_ll
  simp only
  rw [Prod.mk.injEq]
  constructor
  · field_simp
    ring
  · field_simp
    ring

/-- C6: every emitted cell polygon is the vertex-by-vertex inverse
projection of the closed 5-vertex local square ring at its (col, row); the
stored ring has 5 vertices with the first equal to the last, and carrying
the stored polygon forward with the projection recovers exactly the local
square of side tile_m whenever the longitude scale is nonzero. -/
theorem C6_cell_polygon_is_projected_square (F : Nat) (B : MultiPolygonB)
    (coslat0 tile_m : ℚ) (ts : List Tile) (ht : 0 < tile_m)
    (hg : grid_tiles_for_boundary F B coslat0 tile_m = some ts) :
    ∀ tl ∈ ts, ∃ col row : Nat,
      tl.polygon = (square_xy tile_m (gridX0 B coslat0 + col * tile_m)
          (gridY0 B coslat0 + row * tile_m)).map
          (fun p => (gridProj B coslat0).xy_to_ll p.1 p.2) ∧
      tl.polygon.length = 5 ∧
      tl.polygon.head? = tl.polygon.getLast? ∧
      ((gridProj B coslat0).mlon ≠ 0 →
        tl.polygon.map (fun p => (gridProj B coslat0).ll_to_xy p.1 p.2) =
          square_xy tile_m (gridX0 B coslat0 + col * tile_m)
            (gridY0 B coslat0 + row * tile_m)) := by
  intro tl htl
  obtain ⟨col, row, hsc, hb, he⟩ := (grid_some_mem F B coslat0 tile_m ht ts hg tl).mp htl
  refine ⟨col, row, ?_, ?_, ?_, ?_⟩
  · rw [he]; rfl
  · rw [he]
    simp [cellTile, mkTile, square_ll, square_xy]
  · rw [he]
    simp [cellTile, mkTile, square_ll, square_xy]
  · intro hm
    have hn : (gridProj B coslat0).mlat ≠ 0 := by norm_num [gridProj]
    rw [he]
    show (square_ll (gridProj B coslat0) tile_m (gridX0 B coslat0 + col * tile_m)
        (gridY0 B coslat0 + row * tile_m)).map
        (fun p => (gridProj B coslat0).ll_to_xy p.1 p.2) = _
    rw [square_ll, List.map_map]
    have hpt : ∀ p : ℚ × ℚ,
        ((fun p : ℚ × ℚ => (gridProj B coslat0).ll_to_xy p.1 p.2) ∘
          fun p : ℚ × ℚ => (gridProj B coslat0).xy_to_ll p.1 p.2) p = p := by
      intro p
      simp only [Function.comp_apply]
      rw [proj_roundtrip_xy _ hm hn]
    rw [List.map_congr_left (fun a _ => hpt a)]
    simp

theorem C6_witness :
    ∃ ts, grid_tiles_for_boundary 10 B0 1 50 = some ts ∧
      ∀ tl ∈ ts, ∃ col row : Nat,
        tl.polygon = (square_xy 50 (gridX0 B0 1 + col * 50)
            (gridY0 B0 1 + row * 50)).map
            (fun p => (gridProj B0 1).xy_to_ll p.1 p.2) ∧
        tl.polygon.length = 5 ∧
        tl.polygon.head? = tl.polygon.getLast? ∧
        ((gridProj B0 1).mlon ≠ 0 →
          tl.polygon.map (fun p => (gridProj B0 1).ll_to_xy p.1 p.2) =
            square_xy 50 (gridX0 B0 1 + col * 50) (gridY0 B0 1 + row * 50)) := by
  have hs : (grid_tiles_for_boundary 10 B0 1 50).isSome = true := by
    with_unfolding_all decide
  obtain ⟨ts, hts⟩ := Option.isSome_iff_exists.mp hs
  exact ⟨ts, hts, C6_cell_polygon_is_projected_square 10 B0 1 50 ts (by norm_num) hts⟩

/-- One persisted row of the tiles table (schema at app.py lines 35-43):
unique tile_id, polygon geometry, centroid point. -/
structure TileRow where
  tile_id : List Char
  geom : List (ℚ × ℚ)
  centroid : ℚ × ℚ
deriving DecidableEq

/-- coord_to_tile (app.py lines 460-472): the locate endpoint runs
SELECT tile_id FROM tiles WHERE ST_Contains(geom, ST_Point(lon, lat)) and
takes fetchone; a missing row becomes a 404 not-found error, modelled as
none.  The argument st_contains is the PostGIS ST_Contains oracle, which
holds exactly when the polygon strictly contains the point. -/
def coord_to_tile (st_contains : List (ℚ × ℚ) → ℚ × ℚ → Bool)
    (rows : List TileRow) (lat lon : ℚ) : Option (List Char) :=
  (rows.filter (fun r => st_contains r.geom (lon, lat))).head?.map TileRow.tile_id

/-- C8: the locate endpoint answers with the identifier of some stored cell
whose polygon contains the queried coordinate, and it reports not-found
exactly when no stored cell polygon contains the coordinate. -/
theorem C8_locator_sound_and_complete (st_contains : List (ℚ × ℚ) → ℚ × ℚ → Bool)
    (rows : List TileRow) (lat lon : ℚ) :
    (∀ tid, coord_to_tile st_contains rows lat lon = some tid →
      ∃ r ∈ rows, r.tile_id = tid ∧ st_contains r.geom (lon, lat) = true) ∧
    (coord_to_tile st_contains rows lat lon = none ↔
      ∀ r ∈ rows, st_contains r.geom (lon, lat) = false) := by
  constructor
  · intro tid htid
    unfold coord_to_tile at htid
    cases hf : (rows.filter (fun r => st_contains r.geom (lon, lat))).head? with
    | none => rw [hf] at htid; simp at htid
    | some r =>
      rw [hf] at htid
      have hr : r ∈ rows.filter (fun r => st_contains r.geom (lon, lat)) :=
        List.mem_of_mem_head? hf
      have hmem := List.mem_filter.mp hr
      refine ⟨r, hmem.1, ?_, by simpa using hmem.2⟩
      simpa using htid
  · unfold coord_to_tile
    rw [Option.map_eq_none', List.head?_eq_none_iff, List.filter_eq_nil_iff]
    constructor
    · intro h r hr
      have := h r hr
      simpa using this
    · intro h r hr
      simpa using h r hr

theorem C8_witness :
    ∃ r ∈ [TileRow.mk ['A', '1'] [] (0, 0)], r.tile_id = ['A', '1'] ∧
      (fun _ _ => true : List (ℚ × ℚ) → ℚ × ℚ → Bool) r.geom (0, 0) = true :=
  (C8_locator_sound_and_complete (fun _ _ => true)
    [TileRow.mk ['A', '1'] [] (0, 0)] 0 0).1 ['A', '1'] rfl

/-- One INSERT with ON CONFLICT (tile_id) DO UPDATE (app.py lines 276-281)
against the tiles table, modelled on a row list with unique tile_id: an
existing row with the same tile_id gets its geometry and centroid replaced,
otherwise a fresh row is appended.  No row is ever removed. -/
def upsert_tile (rows : List TileRow) (t : Tile) : List TileRow :=
  if rows.any (fun r => r.tile_id == t.tile_id) then
    rows.map (fun r => if r.tile_id == t.tile_id then
      TileRow.mk t.tile_id t.polygon t.centroid else r)
  else
    rows ++ [TileRow.mk t.tile_id t.polygon t.centroid]

/-- Persistence phase of the generate_tiles endpoint (app.py lines
262-283): one upsert per emitted tile, in emission order, with no delete
statement anywhere in the transaction. -/
def generate_tiles (rows : List TileRow) (tiles : List Tile) : List TileRow :=
  tiles.foldl upsert_tile rows

lemma filter_map_update (rs : List TileRow) (t : Tile) (tid : List Char)
    (hne : t.tile_id ≠ tid) :
    (rs.map (fun r => if r.tile_id == t.tile_id then
        TileRow.mk t.tile_id t.polygon t.centroid else r)).filter
      (fun r => r.tile_id == tid) = rs.filter (fun r => r.tile_id == tid) := by
  induction rs with
  | nil => rfl
  | cons r rs ih =>
    simp only [List.map_cons, List.filter_cons]
    by_cases hr : (r.tile_id == t.tile_id) = true
    · have hrt : r.tile_id = t.tile_id := by simpa using hr
      have hnew : ((TileRow.mk t.tile_id t.polygon t.centroid).tile_id == tid) = false := by
        simpa using hne
      have hold : (r.tile_id == tid) = false := by
        rw [hrt]
        simpa using hne
      simp only [hr, if_true, hnew, hold, Bool.false_eq_true, if_false]
      exact ih
    · by_cases h2 : (r.tile_id == tid) = true
      · simp only [hr, Bool.false_eq_true, if_false, h2, if_true]
        rw [ih]
      · have h2f : (r.tile_id == tid) = false := by simpa using h2
        simp only [hr, h2f, Bool.false_eq_true, if_false]
        exact ih

lemma upsert_tile_frame (rows : List TileRow) (t : Tile) (tid : List Char)
    (hne : t.tile_id ≠ tid) :
    (upsert_tile rows t).filter (fun r => r.tile_id == tid) =
      rows.filter (fun r => r.tile_id == tid) := by
  unfold upsert_tile
  split
  · exact filter_map_update rows t tid hne
  · rw [List.filter_append]
    have hnew : ((TileRow.mk t.tile_id t.polygon t.centroid).tile_id == tid) = false := by
      simpa using hne
    simp [List.filter_cons, hnew]

lemma upsert_tile_keeps (rows : List TileRow) (t : Tile) (r : TileRow) (hr : r ∈ rows) :
    ∃ r2 ∈ upsert_tile rows t, r2.tile_id = r.tile_id := by
  unfold upsert_tile
  split
  · refine ⟨if r.tile_id == t.tile_id then
      TileRow.mk t.tile_id t.polygon t.centroid else r, ?_, ?_⟩
    · exact List.mem_map_of_mem _ hr
    · by_cases h : r.tile_id == t.tile_id
      · rw [if_pos h]
        have : r.tile_id = t.tile_id := by simpa using h
        rw [this]
      · rw [if_neg h]
  · exact ⟨r, List.mem_append_left _ hr, rfl⟩

lemma upsert_tile_from (rows : List TileRow) (t : Tile) (r2 : TileRow)
    (h : r2 ∈ upsert_tile rows t) : r2 ∈ rows ∨ r2.tile_id = t.tile_id := by
  unfold upsert_tile at h
  split at h
  · obtain ⟨r, hr, he⟩ := List.mem_map.mp h
    by_cases hc : r.tile_id == t.tile_id
    · rw [if_pos hc] at he
      right
      rw [← he]
    · rw [if_neg hc] at he
      left
      rw [← he]
      exact hr
  · rcases List.mem_append.mp h with h1 | h1
    · exact Or.inl h1
    · right
      have : r2 = TileRow.mk t.tile_id t.polygon t.centroid := by simpa using h1
      rw [this]

/-- C10: the persistence phase of tile generation only inserts or updates
rows keyed by identifiers emitted in the current run and never deletes a
row: rows whose tile_id is not emitted keep exactly their old geometry and
centroid, every pre-existing tile_id survives, and every resulting row is
either an untouched old row or carries an identifier from the current run.
Stale cells from an earlier boundary or tile size therefore persist. -/
theorem C10_generate_only_upserts (rows : List TileRow) (tiles : List Tile) :
    (∀ tid : List Char, tid ∉ tiles.map Tile.tile_id →
      (generate_tiles rows tiles).filter (fun r => r.tile_id == tid) =
        rows.filter (fun r => r.tile_id == tid)) ∧
    (∀ r ∈ rows, ∃ r2 ∈ generate_tiles rows tiles, r2.tile_id = r.tile_id) ∧
    (∀ r2 ∈ generate_tiles rows tiles, r2 ∈ rows ∨
      r2.tile_id ∈ tiles.map Tile.tile_id) := by
  induction tiles generalizing rows with
  | nil =>
    refine ⟨fun tid _ => rfl, fun r hr => ⟨r, hr, rfl⟩, fun r2 h2 => Or.inl h2⟩
  | cons t ts ih =>
    obtain ⟨ih1, ih2, ih3⟩ := ih (upsert_tile rows t)
    refine ⟨?_, ?_, ?_⟩
    · intro tid htid
      have hne : t.tile_id ≠ tid := by
        intro he
        exact htid (by rw [← he]; exact List.mem_map_of_mem _ (by simp))
      have hnotin : tid ∉ ts.map Tile.tile_id := by
        intro hin
        exact htid (by simp [hin])
      show (generate_tiles (upsert_tile rows t) ts).filter (fun r => r.tile_id == tid) = _
      rw [ih1 tid hnotin, upsert_tile_frame rows t tid hne]
    · intro r hr
      obtain ⟨r2, hr2, he2⟩ := upsert_tile_keeps rows t r hr
      obtain ⟨r3, hr3, he3⟩ := ih2 r2 hr2
      exact ⟨r3, hr3, by rw [he3, he2]⟩
    · intro r2 h2
      rcases ih3 r2 h2 with h3 | h3
      · rcases upsert_tile_from rows t r2 h3 with h4 | h4
        · exact Or.inl h4
        · exact Or.inr (by simp [h4])
      · exact Or.inr (by simp [h3])

theorem C10_witness :
    (['Z', '9'] : List Char) ∉
        ([Tile.mk ['A', '1'] [] (0, 0)].map Tile.tile_id) ∧
      (generate_tiles [TileRow.mk ['Z', '9'] [] (0, 0)]
          [Tile.mk ['A', '1'] [] (0, 0)]).filter (fun r => r.tile_id == ['Z', '9']) =
        [TileRow.mk ['Z', '9'] [] (0, 0)].filter (fun r => r.tile_id == ['Z', '9']) :=
  ⟨by decide, (C10_generate_only_upserts [TileRow.mk ['Z', '9'] [] (0, 0)]
    [Tile.mk ['A', '1'] [] (0, 0)]).1 ['Z', '9'] (by decide)⟩
